import Mathlib

/-!
# Verification of the ApiCharge example-client protocol core

A shallow embedding, in Lean 4, of the client-side token-purchase and
activation protocol implemented (near-identically) by the four example
scripts under `ApiChargeStellarRPC/Mainnet/`:

* `stablecoin_example.py`
* `activate_account_basic_example.py`
* `activate_account_full_example.py`
* `rpc_passthrough_example.py`

JSON values exchanged with the server are modelled by an inductive `Json`
type (Python `dict`s become ordered association lists, numbers are modelled
as integers).  The Python standard-library primitives the scripts rely on —
`base64.b64decode` in its default non-strict mode, `base64.b64encode`,
`bytes.fromhex`, `json.dumps(·, separators=(',', ':'))` and
`urllib.parse.quote(·, safe='')` / `urllib.parse.unquote` — are embedded
byte-for-byte from their CPython semantics.  Fallible operations (Python
exceptions) are modelled with `Option`: `none` is an uncaught exception at
that point of the flow.
-/

/-- JSON values as delivered by the server and manipulated by the scripts.
Python `dict`s preserve insertion order, hence objects are ordered
association lists.  Numbers are modelled as integers (all numeric fields in
the protocol — prices, ledger numbers — are integers). -/
inductive Json where
  | null : Json
  | bool : Bool → Json
  | num : Int → Json
  | str : String → Json
  | arr : List Json → Json
  | obj : List (String × Json) → Json

/-- Python `d[k]` / successful `d.get(k)`: first binding of `k` in the
association list (a Python dict has at most one binding per key, so "first"
is exact). -/
def dictGet (d : List (String × Json)) (k : String) : Option Json :=
  match d with
  | [] => none
  | (k', v) :: rest => if k' = k then some v else dictGet rest k

/-- Python `d[k] = v`: overwrite in place if the key is present (its
position is preserved), otherwise append a new binding. -/
def dictSet (d : List (String × Json)) (k : String) (v : Json) :
    List (String × Json) :=
  match d with
  | [] => [(k, v)]
  | (k', v') :: rest =>
    if k' = k then (k, v) :: rest else (k', v') :: dictSet rest k v

/-- Python `d.get(k, dflt)`. -/
def getD (d : List (String × Json)) (k : String) (dflt : Json) : Json :=
  match dictGet d k with
  | some v => v
  | none => dflt

/-- Python truthiness of a JSON value (`if x:`). -/
def truthy : Json → Bool
  | .null => false
  | .bool b => b
  | .num i => decide (i ≠ 0)
  | .str s => decide (s ≠ "")
  | .arr [] => false
  | .arr (_ :: _) => true
  | .obj [] => false
  | .obj (_ :: _) => true

/-- Truthiness of an optional lookup result (`x = d.get(k)` then `if x:`;
a missing key gives `None`, which is falsy). -/
def truthyO : Option Json → Bool
  | none => false
  | some v => truthy v

/-! ## `base64.b64decode` (default, non-strict mode)

CPython's `binascii.a2b_base64` with `strict_mode=False`: characters
outside the alphabet are skipped; a pad character `=` seen with `quad_pos ≥ 2`
finishes decoding once `quad_pos + pads ≥ 4` (anything after it is ignored);
at end of input the leftover quad must be empty, otherwise the call raises
(`Incorrect padding` / `number of data characters cannot be 1 more than a
multiple of 4`).  `base64.b64decode` additionally rejects non-ASCII input
(the `str → bytes` ASCII encoding step raises). -/

/-- Value of a character in the standard base64 alphabet; `none` for
characters outside the alphabet (skipped by non-strict decoding). -/
def b64val (c : Char) : Option Nat :=
  if 65 ≤ c.toNat ∧ c.toNat ≤ 90 then some (c.toNat - 65)
  else if 97 ≤ c.toNat ∧ c.toNat ≤ 122 then some (c.toNat - 97 + 26)
  else if 48 ≤ c.toNat ∧ c.toNat ≤ 57 then some (c.toNat - 48 + 52)
  else if c = '+' then some 62
  else if c = '/' then some 63
  else none

/-- The `binascii.a2b_base64` loop.  State: `quadPos` (position in the
current 4-character group), `leftchar` (bits carried over), `pads` (pad
characters seen in this group), `out` (decoded bytes, reversed). -/
def a2bBase64 : List Char → Nat → Nat → Nat → List Nat → Option (List Nat)
  | [], quadPos, _, _, out =>
    if quadPos = 0 then some out.reverse else none
  | c :: rest, quadPos, leftchar, pads, out =>
    if c = '=' then
      if 2 ≤ quadPos then
        if 4 ≤ quadPos + (pads + 1) then some out.reverse
        else a2bBase64 rest quadPos leftchar (pads + 1) out
      else a2bBase64 rest quadPos leftchar pads out
    else
      match b64val c with
      | none => a2bBase64 rest quadPos leftchar pads out
      | some v =>
        match quadPos with
        | 0 => a2bBase64 rest 1 v 0 out
        | 1 => a2bBase64 rest 2 (v % 16) 0 ((leftchar * 4 + v / 16) :: out)
        | 2 => a2bBase64 rest 3 (v % 4) 0 ((leftchar * 16 + v / 4) :: out)
        | _ => a2bBase64 rest 0 0 0 ((leftchar * 64 + v) :: out)

/-- `base64.b64decode(s)` on a `str` argument: ASCII-encode (raising on any
character above U+007F), then run the non-strict decoding loop.  `none`
models a raised exception. -/
def b64decodePy (s : String) : Option (List Nat) :=
  if s.data.all (fun c => decide (c.toNat ≤ 127)) then
    a2bBase64 s.data 0 0 0 []
  else none

/-- One output character of `base64.b64encode` (`n < 64`). -/
def b64chr (n : Nat) : Char :=
  if n < 26 then Char.ofNat (65 + n)          -- 'A'..'Z'
  else if n < 52 then Char.ofNat (97 + (n - 26))   -- 'a'..'z'
  else if n < 62 then Char.ofNat (48 + (n - 52))   -- '0'..'9'
  else if n = 62 then '+' else '/'

/-- `base64.b64encode`: 3-byte groups to 4 characters, `=`-padded. -/
def b64encodeGo : List Nat → List Char
  | [] => []
  | [b1] => [b64chr (b1 / 4), b64chr (b1 % 4 * 16), '=', '=']
  | [b1, b2] =>
    [b64chr (b1 / 4), b64chr (b1 % 4 * 16 + b2 / 16), b64chr (b2 % 16 * 4), '=']
  | b1 :: b2 :: b3 :: rest =>
    b64chr (b1 / 4) :: b64chr (b1 % 4 * 16 + b2 / 16) ::
      b64chr (b2 % 16 * 4 + b3 / 64) :: b64chr (b3 % 64) :: b64encodeGo rest

/-- `base64.b64encode(data).decode('utf-8')` as used by the scripts. -/
def b64encodePy (bs : List Nat) : String := String.mk (b64encodeGo bs)

/-! ## `bytes.fromhex` -/

/-- Value of a hexadecimal digit (either case), `none` otherwise. -/
def hexVal (c : Char) : Option Nat :=
  if 48 ≤ c.toNat ∧ c.toNat ≤ 57 then some (c.toNat - 48)
  else if 97 ≤ c.toNat ∧ c.toNat ≤ 102 then some (c.toNat - 97 + 10)
  else if 65 ≤ c.toNat ∧ c.toNat ≤ 70 then some (c.toNat - 65 + 10)
  else none

/-- ASCII whitespace, skipped by `bytes.fromhex` between digit pairs. -/
def isPyWs (c : Char) : Bool :=
  decide (c.toNat = 32 ∨ c.toNat = 9 ∨ c.toNat = 10 ∨ c.toNat = 13 ∨
          c.toNat = 11 ∨ c.toNat = 12)

/-- `bytes.fromhex(s)`: ASCII whitespace may separate digit pairs; each
pair of hex digits yields one byte; anything else raises (`none`). -/
def fromhexGo : List Char → Option (List Nat)
  | [] => some []
  | c :: rest =>
    if isPyWs c then fromhexGo rest
    else
      match hexVal c, rest with
      | some h, c2 :: rest2 =>
        match hexVal c2 with
        | some l => (fromhexGo rest2).map (fun t => (h * 16 + l) :: t)
        | none => none
      | _, _ => none

/-- `bytes.fromhex` on a string, as a byte list. -/
def fromhexPy (s : String) : Option (List Nat) := fromhexGo s.data

/-! ## The scripts' `_is_base64` helper and encoding detection -/

/-- `_is_base64(s)`: `base64.b64decode(s)` under a bare `try/except` —
true exactly when the decode does not raise. -/
def isBase64 (s : String) : Bool := (b64decodePy s).isSome

/-- Step 2 decoding of `authorisationToSign`
(`bytes.fromhex(auth) if not _is_base64(auth) else base64.b64decode(auth)`). -/
def decodeAuthBytes (s : String) : Option (List Nat) :=
  if ¬ isBase64 s then fromhexPy s else b64decodePy s

/-! ## `json.dumps(·, separators=(',', ':'))` with default `ensure_ascii=True` -/

/-- Decimal digit character (`d ≤ 9`; larger inputs clamp to `'9'`,
never reached). -/
def digitCh (d : Nat) : Char :=
  match d with
  | 0 => '0' | 1 => '1' | 2 => '2' | 3 => '3' | 4 => '4'
  | 5 => '5' | 6 => '6' | 7 => '7' | 8 => '8' | _ => '9'

/-- Lowercase hexadecimal digit character (`d ≤ 15`, clamping as above). -/
def hexChLower (d : Nat) : Char :=
  match d with
  | 0 => '0' | 1 => '1' | 2 => '2' | 3 => '3' | 4 => '4'
  | 5 => '5' | 6 => '6' | 7 => '7' | 8 => '8' | 9 => '9'
  | 10 => 'a' | 11 => 'b' | 12 => 'c' | 13 => 'd' | 14 => 'e' | _ => 'f'

/-- Uppercase hexadecimal digit character (`d ≤ 15`, clamping as above). -/
def hexChUpper (d : Nat) : Char :=
  match d with
  | 0 => '0' | 1 => '1' | 2 => '2' | 3 => '3' | 4 => '4'
  | 5 => '5' | 6 => '6' | 7 => '7' | 8 => '8' | 9 => '9'
  | 10 => 'A' | 11 => 'B' | 12 => 'C' | 13 => 'D' | 14 => 'E' | _ => 'F'

/-- Decimal digits of `n`, least significant first. -/
def natCharsRev (n : Nat) : List Char :=
  if h : n < 10 then [digitCh n]
  else digitCh (n % 10) :: natCharsRev (n / 10)
decreasing_by exact Nat.div_lt_self (by omega) (by omega)

/-- Decimal representation of a natural number, as `repr` prints it. -/
def natChars (n : Nat) : List Char := (natCharsRev n).reverse

/-- Python `repr` of an integer. -/
def intChars : Int → List Char
  | .ofNat n => natChars n
  | .negSucc m => '-' :: natChars (m + 1)

/-- A `\uXXXX` escape. -/
def u4 (n : Nat) : List Char :=
  ['\\', 'u', hexChLower (n / 4096 % 16), hexChLower (n / 256 % 16),
   hexChLower (n / 16 % 16), hexChLower (n % 16)]

/-- How `json.dumps` (with `ensure_ascii=True`) renders one character of a
string: `"` and `\` and the five short control escapes specially, other
control characters and all non-ASCII as `\uXXXX` (a non-BMP character
becomes a surrogate pair). -/
def escChar (c : Char) : List Char :=
  if c = '"' then ['\\', '"']
  else if c = '\\' then ['\\', '\\']
  else if c.toNat = 10 then ['\\', 'n']
  else if c.toNat = 13 then ['\\', 'r']
  else if c.toNat = 9 then ['\\', 't']
  else if c.toNat = 8 then ['\\', 'b']
  else if c.toNat = 12 then ['\\', 'f']
  else if c.toNat < 32 ∨ 127 ≤ c.toNat then
    if c.toNat < 65536 then u4 c.toNat
    else u4 (55296 + (c.toNat - 65536) / 1024) ++ u4 (56320 + (c.toNat - 65536) % 1024)
  else [c]

/-- Body of a JSON string literal. -/
def escString (cs : List Char) : List Char :=
  match cs with
  | [] => []
  | c :: rest => escChar c ++ escString rest

mutual

/-- `json.dumps(v, separators=(',', ':'))`: compact rendering, object
members in insertion order. -/
def dumpVal : Json → List Char
  | .num i => intChars i
  | .str s => '"' :: escString s.data ++ ['"']
  | .arr l => '[' :: dumpElems l ++ [']']
  | .obj kvs => '\x7b' :: dumpMembers kvs ++ ['\x7d']
  | .bool false => ['f', 'a', 'l', 's', 'e']
  | .bool true => ['t', 'r', 'u', 'e']
  | .null => ['n', 'u', 'l', 'l']

/-- Comma-joined array elements. -/
def dumpElems : List Json → List Char
  | [] => []
  | [x] => dumpVal x
  | x :: xs => dumpVal x ++ ',' :: dumpElems xs

/-- Comma-joined `"key":value` members. -/
def dumpMembers : List (String × Json) → List Char
  | [] => []
  | [(k, v)] => '"' :: escString k.data ++ '"' :: ':' :: dumpVal v
  | (k, v) :: kvs =>
    ('"' :: escString k.data ++ '"' :: ':' :: dumpVal v) ++ ',' :: dumpMembers kvs

end

/-! ## `urllib.parse.quote(·, safe='')` and `urllib.parse.unquote` -/

/-- `urllib.parse`'s `_ALWAYS_SAFE` set: ASCII letters, digits, `_.-~`. -/
def alwaysSafe (c : Char) : Bool :=
  decide ((65 ≤ c.toNat ∧ c.toNat ≤ 90) ∨ (97 ≤ c.toNat ∧ c.toNat ≤ 122) ∨
          (48 ≤ c.toNat ∧ c.toNat ≤ 57) ∨
          c.toNat = 95 ∨ c.toNat = 46 ∨ c.toNat = 45 ∨ c.toNat = 126)

/-- UTF-8 encoding of a code point. -/
def utf8Enc (n : Nat) : List Nat :=
  if n < 128 then [n]
  else if n < 2048 then [192 + n / 64, 128 + n % 64]
  else if n < 65536 then [224 + n / 4096, 128 + n / 64 % 64, 128 + n % 64]
  else [240 + n / 262144, 128 + n / 4096 % 64, 128 + n / 64 % 64, 128 + n % 64]

/-- `quote` of a single character with `safe=''`: kept only if always-safe,
otherwise its UTF-8 bytes are percent-encoded with uppercase hex. -/
def quoteChar (c : Char) : List Char :=
  if alwaysSafe c then [c]
  else (utf8Enc c.toNat).foldr
    (fun b acc => '%' :: hexChUpper (b / 16) :: hexChUpper (b % 16) :: acc) []

/-- `urllib.parse.quote(s, safe='')`. -/
def pctQuote (cs : List Char) : List Char :=
  match cs with
  | [] => []
  | c :: rest => quoteChar c ++ pctQuote rest

/-- `urllib.parse.unquote`, for percent-runs whose decoded bytes are ASCII
(each byte becomes the corresponding character; this is exactly the image
of `quote` on ASCII input, the only use made of it here).  A `%` not
followed by two hex digits stays literal. -/
def pctUnquote : List Char → List Char
  | [] => []
  | c :: rest =>
    if c = '%' then
      match rest with
      | a :: b :: rest2 =>
        match hexVal a, hexVal b with
        | some ha, some hb => Char.ofNat (ha * 16 + hb) :: pctUnquote rest2
        | _, _ => '%' :: pctUnquote (a :: b :: rest2)
      | [a] => '%' :: pctUnquote [a]
      | [] => ['%']
    else c :: pctUnquote rest
termination_by cs => cs.length
decreasing_by all_goals simp +arith [List.length_cons]

/-! ## The broker protocol (`purchase_access_token`), embedded

The four scripts contain the same function body; `stablecoin_example.py`
routes base64 through its `_b64encode`/`_b64decode` wrappers, which are
definitionally `base64.b64encode`/`base64.b64decode`. -/

/-- `d.get(k, "")` at a point where the result is then used as a `str`
(a present non-string value raises a `TypeError` downstream: `none`). -/
def getStrD (d : List (String × Json)) (k : String) : Option String :=
  match dictGet d k with
  | none => some ""
  | some (Json.str s) => some s
  | some _ => none

/-- `d.get(k, {})` at a point where the result is then used as a `dict`
(`.get` on a present non-dict value raises an `AttributeError`: `none`). -/
def getObjD (d : List (String × Json)) (k : String) :
    Option (List (String × Json)) :=
  match dictGet d k with
  | none => some []
  | some (Json.obj o) => some o
  | some _ => none

/-- Step 2 of `purchase_access_token` (lines 74–77 of
`activate_account_full_example.py` and identically in the other scripts):
read `authorisationToSign` with default `""`, decode it by the
base64-else-hex detection, sign the decoded bytes, and overwrite the field
with the base64 of the signature.  Also returns the byte string that was
passed to `keypair.sign`, so that theorems can speak about the signer's
input.  `none` models an uncaught exception (purchase aborted). -/
def signAuthorisation (sign : List Nat → List Nat)
    (pi : List (String × Json)) :
    Option (List (String × Json) × List Nat) := do
  let auth ← getStrD pi "authorisationToSign"
  let bytes ← decodeAuthBytes auth
  some (dictSet pi "authorisationToSign"
          (Json.str (b64encodePy (sign bytes))), bytes)

/-- Step 4 of `purchase_access_token` (lines 90–97): if
`signableEntity.signature` is truthy, base64-decode it, sign, and store the
base64 signature under the token's top-level `signature` key; otherwise
leave the token as received. -/
def signAccessToken (sign : List Nat → List Nat)
    (tok : List (String × Json)) : Option (List (String × Json)) := do
  let se ← getObjD tok "signableEntity"
  let sigv := match dictGet se "signature" with
              | none => Json.str ""
              | some v => v
  if truthy sigv then do
    let s ← (match sigv with | Json.str s => some s | _ => none)
    let bs ← b64decodePy s
    some (dictSet tok "signature" (Json.str (b64encodePy (sign bs))))
  else
    some tok

/-- Step 5 of `purchase_access_token` (lines 99–100):
`urllib.parse.quote(json.dumps(access_token, separators=(',', ':')), safe='')`. -/
def serializeToken (tok : List (String × Json)) : String :=
  String.mk (pctQuote (dumpVal (Json.obj tok)))

/-! ## `find_quote_by_route_id` -/

/-- `needle` is a prefix of `hay`. -/
def startsWithL : List Char → List Char → Bool
  | [], _ => true
  | n1 :: ntl, h1 :: htl => n1 == h1 && startsWithL ntl htl
  | _ :: _, [] => false

/-- Python `needle in hay` for strings: contiguous-substring containment
(the empty needle is contained in everything). -/
def containsSub (needle hay : List Char) : Bool :=
  match hay with
  | [] => needle.isEmpty
  | _ :: t => startsWithL needle hay || containsSub needle t

/-- The loop of `find_quote_by_route_id`: for each quote,
`signable = quote.get("signableEntity", {})` and match
`route_id_substring in signable.get("routeId", "")`; the first match is
returned, `None` when the list is exhausted.  Outer `none` = an exception
(`quote` not a dict, `signableEntity` present but not a dict, `routeId`
present but not a string). -/
def findQuoteGo (sub : List Char) : List Json → Option (Option Json)
  | [] => some none
  | q :: rest =>
    match q with
    | Json.obj qd =>
      match getObjD qd "signableEntity" with
      | none => none
      | some se =>
        match getStrD se "routeId" with
        | none => none
        | some rid =>
          if containsSub sub rid.data then some (some q) else findQuoteGo sub rest
    | _ => none

/-- `find_quote_by_route_id(quotes, route_id_substring)` (lines 55–61 of
`stablecoin_example.py`, identical in the other three scripts).
`quotes.get("quotes", [])` is iterated; iterating a non-list raises unless
it is an empty `str`/`dict` (whose iteration is empty) — a non-empty `str`
or `dict` yields non-dict elements on which `.get` raises. -/
def findQuoteByRouteId (quotes : List (String × Json)) (sub : String) :
    Option (Option Json) :=
  match dictGet quotes "quotes" with
  | none => some none
  | some (Json.arr l) => findQuoteGo sub.data l
  | some (Json.str s) => if s = "" then some none else none
  | some (Json.obj o) => (match o with | [] => some none | _ => none)
  | some _ => none

/-! ## The status-polling loop (`main` of `stablecoin_example.py`, lines
334–360) -/

/-- ASCII lowering of one character (`str.lower` restricted to the ASCII
range in which all protocol status strings live). -/
def lowerChar (c : Char) : Char :=
  if 65 ≤ c.toNat ∧ c.toNat ≤ 90 then Char.ofNat (c.toNat + 32) else c

/-- `s.lower()` on ASCII strings. -/
def lowerStr (s : String) : String := String.mk (s.data.map lowerChar)

/-- Observable event of the polling loop: a `time.sleep(secs)` or a
status-query network call for attempt `idx`. -/
inductive PollEv where
  | sleep (secs : Nat)
  | query (idx : Nat)
deriving DecidableEq

/-- Outcome of the polling loop: terminal `success` (with the reported
`ledger`, default `"pending"`), terminal `failed` (with the reported
`resultXdr`, default `"N/A"`), or `unknown` after the attempt budget. -/
inductive PollResult where
  | success (ledger : Json)
  | failed (resultXdr : Json)
  | unknown

/-- One recursive step per loop iteration of
`for attempt in range(20): time.sleep(2); status = check_transaction_status(...)`.
`st i` is the JSON body returned by the `i`-th status call.  The trace
records sleeps and calls in order.  `none` models the `AttributeError`
raised by `.lower()` when a present `status` field is not a string. -/
def pollGo (st : Nat → List (String × Json)) :
    Nat → Nat → List PollEv → Option (PollResult × List PollEv)
  | _, 0, tr => some (.unknown, tr)
  | attempt, fuel + 1, tr =>
    let tr2 := tr ++ [PollEv.sleep 2, PollEv.query attempt]
    match dictGet (st attempt) "status" with
    | some (Json.str s) =>
      if lowerStr s = "success" then
        some (.success (getD (st attempt) "ledger" (Json.str "pending")), tr2)
      else if lowerStr s = "failed" then
        some (.failed (getD (st attempt) "resultXdr" (Json.str "N/A")), tr2)
      else pollGo st (attempt + 1) fuel tr2
    | none => pollGo st (attempt + 1) fuel tr2
    | some _ => none

/-- The whole `[6/6] Waiting for confirmation...` loop: 20 attempts,
2-second sleep before every status call, early return on a terminal
status, `unknown` if the budget is exhausted. -/
def pollStatus (st : Nat → List (String × Json)) :
    Option (PollResult × List PollEv) :=
  pollGo st 0 20 []

/-! ## The activation flow after phase 1
(`main` of `activate_account_full_example.py`, lines 199–239) -/

/-- Python `v[:50]` succeeds on strings and lists, raises otherwise. -/
def sliceable : Json → Bool
  | .str _ => true
  | .arr _ => true
  | _ => false

/-- What the orchestrator does with the phase-1 response body. -/
inductive ActOutcome where
  | doneNoTrustlines
      -- the guard returned: "Account created but trustlines not available"
  | phase2Call (body : List (String × Json))
      -- the phase-2 POST was issued with this JSON body
  | errorAbort
      -- an exception fired after the guard and before the phase-2 POST

/-- Lines 199–239 of `activate_account_full_example.py`, from the phase-1
response to the phase-2 request.  `ticket`, `trustlineTransactionXdr` and
`trustlineTransactionHash` are read with `.get`; the guard is
`if not ticket or not trustline_xdr: return` — the hash is *not* part of
the guard.  Past the guard the script prints `ticket[:50]` (raising on a
non-sliceable ticket), hex-decodes the hash (raising if it is absent, not
a string, or not hex), signs the bytes with the *new account's* keypair,
and POSTs `publicKey`, `ticket`, `callerAccount` and the base64
`rawSignature`.  `payerSign` is the payer keypair's signing function; it
is in scope in the script but unused in this phase. -/
def activationAfterPhase1 (payerSign newSign : List Nat → List Nat)
    (newPub : String) (p1 : List (String × Json)) : ActOutcome :=
  let ticket := dictGet p1 "ticket"
  let xdr := dictGet p1 "trustlineTransactionXdr"
  if truthyO ticket = false ∨ truthyO xdr = false then
    .doneNoTrustlines
  else
    match ticket with
    | some tv =>
      if sliceable tv then
        match dictGet p1 "trustlineTransactionHash" with
        | some (Json.str h) =>
          (match fromhexPy h with
           | some hb =>
             .phase2Call
               [("publicKey", Json.str newPub),
                ("ticket", tv),
                ("callerAccount", Json.str newPub),
                ("rawSignature", Json.str (b64encodePy (newSign hb)))]
           | none => .errorAbort)
        | _ => .errorAbort
      else .errorAbort
    | none => .doneNoTrustlines

/-! ## A JSON decoder (verification artifact for the round-trip property)

The scripts never parse the credential again; the decoder below is the
mathematical inverse required to state "percent-decoding and JSON-decoding
the credential recovers the token object".  It is fuel-indexed recursive
descent over exactly the compact grammar `dumpVal` emits. -/

/-- Decimal digit test. -/
def isDigitCh (c : Char) : Bool := decide (48 ≤ c.toNat ∧ c.toNat ≤ 57)

/-- Greedily consume decimal digits, accumulating their value. -/
def parseNatGo : List Char → Nat → Nat × List Char
  | [], acc => (acc, [])
  | c :: rest, acc =>
    if isDigitCh c then parseNatGo rest (acc * 10 + (c.toNat - 48))
    else (acc, c :: rest)

mutual

/-- Parse one JSON value. -/
def parseVal : Nat → List Char → Option (Json × List Char)
  | 0, _ => none
  | _ + 1, [] => none
  | fuel + 1, c :: cs =>
    if c = 'n' then
      match cs with
      | 'u' :: 'l' :: 'l' :: rest => some (.null, rest)
      | _ => none
    else if c = 't' then
      match cs with
      | 'r' :: 'u' :: 'e' :: rest => some (.bool true, rest)
      | _ => none
    else if c = 'f' then
      match cs with
      | 'a' :: 'l' :: 's' :: 'e' :: rest => some (.bool false, rest)
      | _ => none
    else if c = '"' then
      match cs.dropWhile (fun x => !(x == '"')) with
      | '"' :: rest2 =>
        some (.str (String.mk (cs.takeWhile (fun x => !(x == '"')))), rest2)
      | _ => none
    else if c = '[' then
      match cs with
      | [] => none
      | c2 :: cs2 =>
        if c2 = ']' then some (.arr [], cs2)
        else (parseElems fuel (c2 :: cs2)).map (fun p => (.arr p.1, p.2))
    else if c = '\x7b' then
      match cs with
      | [] => none
      | c2 :: cs2 =>
        if c2 = '\x7d' then some (.obj [], cs2)
        else (parseMembers fuel (c2 :: cs2)).map (fun p => (.obj p.1, p.2))
    else if c = '-' then
      match cs with
      | c2 :: cs2 =>
        if isDigitCh c2 then
          let p := parseNatGo cs2 (c2.toNat - 48)
          some (.num (-(p.1 : Int)), p.2)
        else none
      | [] => none
    else if isDigitCh c then
      let p := parseNatGo cs (c.toNat - 48)
      some (.num (p.1 : Int), p.2)
    else none

/-- Parse the elements of a non-empty array, consuming the closing `]`. -/
def parseElems : Nat → List Char → Option (List Json × List Char)
  | 0, _ => none
  | fuel + 1, cs =>
    match parseVal fuel cs with
    | none => none
    | some (j, r) =>
      match r with
      | ',' :: r2 => (parseElems fuel r2).map (fun p => (j :: p.1, p.2))
      | ']' :: r2 => some ([j], r2)
      | _ => none

/-- Parse the members of a non-empty object, consuming the closing brace. -/
def parseMembers : Nat → List Char → Option (List (String × Json) × List Char)
  | 0, _ => none
  | fuel + 1, cs =>
    match cs with
    | '"' :: rest =>
      (match rest.dropWhile (fun x => !(x == '"')) with
       | '"' :: ':' :: rest2 =>
         (match parseVal fuel rest2 with
          | none => none
          | some (j, r) =>
            let key := String.mk (rest.takeWhile (fun x => !(x == '"')))
            match r with
            | ',' :: r2 =>
              (parseMembers fuel r2).map (fun p => ((key, j) :: p.1, p.2))
            | '\x7d' :: r2 => some ([(key, j)], r2)
            | _ => none)
       | _ => none)
    | _ => none

end

/-- JSON-decode a whole string (the fuel `length + 1` dominates the number
of values any parse can produce). -/
def jsonParse (s : String) : Option Json :=
  match parseVal (s.length + 1) s.data with
  | some (j, []) => some j
  | _ => none

/-! ## Plain characters and tokens

`dumpVal` emits a string character verbatim exactly when it is printable
ASCII other than `"` and `\`.  Protocol tokens (base64, hex, route ids,
URLs, JSON-safe punctuation) are made of such characters. -/

/-- A character that `json.dumps` renders verbatim inside a string
literal. -/
def plainChar (c : Char) : Bool :=
  decide (32 ≤ c.toNat ∧ c.toNat < 127 ∧ c.toNat ≠ 34 ∧ c.toNat ≠ 92)

mutual

/-- Every string (value or key) in the JSON value is made of plain
characters. -/
def plainV : Json → Bool
  | .null => true
  | .bool _ => true
  | .num _ => true
  | .str s => s.data.all plainChar
  | .arr l => plainL l
  | .obj kvs => plainKV kvs

/-- `plainV` on each element. -/
def plainL : List Json → Bool
  | [] => true
  | x :: xs => plainV x && plainL xs

/-- `plainV` on each member; keys must be plain too. -/
def plainKV : List (String × Json) → Bool
  | [] => true
  | (k, v) :: kvs => k.data.all plainChar && plainV v && plainKV kvs

end

mutual

/-- Fuel adequate for parsing the dump of a value. -/
def fuelOf : Json → Nat
  | .null => 1
  | .bool _ => 1
  | .num _ => 1
  | .str _ => 1
  | .arr l => 1 + sumFuel l
  | .obj kvs => 1 + sumFuelKV kvs

/-- Fuel for a list of elements. -/
def sumFuel : List Json → Nat
  | [] => 0
  | x :: xs => fuelOf x + 1 + sumFuel xs

/-- Fuel for a list of members. -/
def sumFuelKV : List (String × Json) → Nat
  | [] => 0
  | (_, v) :: kvs => fuelOf v + 1 + sumFuelKV kvs

end

/-! ## Association-list (Python dict) lemmas -/

/-- Setting key `k` does not change lookups of any other key. -/
theorem dictGet_dictSet_ne (d : List (String × Json)) (k k' : String)
    (v : Json) (h : k' ≠ k) : dictGet (dictSet d k v) k' = dictGet d k' := by
  induction d with
  | nil => simp [dictGet, dictSet, Ne.symm h]
  | cons kv rest ih =>
    obtain ⟨k₀, v₀⟩ := kv
    by_cases hk : k₀ = k
    · subst hk
      simp [dictGet, dictSet, Ne.symm h]
    · by_cases hk' : k₀ = k'
      · simp [dictGet, dictSet, hk, hk', h]
      · simp [dictGet, dictSet, hk, hk', ih]

/-! ## Base64 / hex classification lemmas -/

/-- If the base64 decode succeeds, the detection step takes the base64
branch. -/
theorem decodeAuthBytes_of_b64 (s : String) (h : (b64decodePy s).isSome) :
    decodeAuthBytes s = b64decodePy s := by
  simp [decodeAuthBytes, isBase64, h]

/-- If the base64 decode raises, the detection step takes the hex branch. -/
theorem decodeAuthBytes_of_not_b64 (s : String)
    (h : ¬ (b64decodePy s).isSome) : decodeAuthBytes s = fromhexPy s := by
  simp [decodeAuthBytes, isBase64, h]

/-- A hex digit is not ASCII whitespace. -/
theorem hexVal_not_ws (c : Char) (h : isPyWs c = true) : hexVal c = none := by
  simp only [isPyWs, decide_eq_true_eq] at h
  simp only [hexVal]
  rw [if_neg (by omega), if_neg (by omega), if_neg (by omega)]

/-- `bytes.fromhex` succeeds on any even-length string of hex digits. -/
theorem fromhexGo_all_hex :
    ∀ (n : Nat) (cs : List Char), cs.length ≤ n →
      (∀ c ∈ cs, (hexVal c).isSome) → cs.length % 2 = 0 →
      (fromhexGo cs).isSome := by
  intro n
  induction n with
  | zero =>
    intro cs hlen _ _
    match cs with
    | [] => simp [fromhexGo]
    | _ :: _ => simp at hlen
  | succ k ih =>
    intro cs hlen hall hmod
    match cs with
    | [] => simp [fromhexGo]
    | [c] => simp at hmod
    | c :: c2 :: rest =>
      have hc : (hexVal c).isSome := hall c (by simp)
      have hc2 : (hexVal c2).isSome := hall c2 (by simp)
      have hws : isPyWs c = false := by
        by_contra hcon
        rw [hexVal_not_ws c (by revert hcon; cases isPyWs c <;> simp)] at hc
        simp at hc
      obtain ⟨h1, hv1⟩ := Option.isSome_iff_exists.mp hc
      obtain ⟨h2, hv2⟩ := Option.isSome_iff_exists.mp hc2
      have hrest : (fromhexGo rest).isSome := by
        apply ih rest (by simp at hlen; omega)
          (fun x hx => hall x (by simp [hx])) (by simp at hmod ⊢; omega)
      obtain ⟨t, ht⟩ := Option.isSome_iff_exists.mp hrest
      simp [fromhexGo, hws, hv1, hv2, ht]

/-- No character of the base64 alphabet is the pad character. -/
theorem b64val_ne_pad (c : Char) (h : (b64val c).isSome) : c ≠ '=' := by
  intro hc
  subst hc
  exact absurd h (by decide)

/-- The decoding loop succeeds on any run of pure alphabet characters
whose length completes the current quad. -/
theorem a2bBase64_all_alpha :
    ∀ (cs : List Char) (q l p : Nat) (o : List Nat),
      (∀ c ∈ cs, (b64val c).isSome) → q < 4 → (q + cs.length) % 4 = 0 →
      (a2bBase64 cs q l p o).isSome := by
  intro cs
  induction cs with
  | nil =>
    intro q l p o _ hq hmod
    simp at hmod
    have hq0 : q = 0 := by omega
    simp [a2bBase64, hq0]
  | cons c rest ih =>
    intro q l p o hall hq hmod
    have hc : (b64val c).isSome := hall c (by simp)
    obtain ⟨v, hv⟩ := Option.isSome_iff_exists.mp hc
    have hrest : ∀ x ∈ rest, (b64val x).isSome :=
      fun x hx => hall x (by simp [hx])
    simp only [List.length_cons] at hmod
    simp only [a2bBase64, if_neg (b64val_ne_pad c hc), hv]
    interval_cases q
    · exact ih 1 v 0 o hrest (by omega) (by omega)
    · exact ih 2 (v % 16) 0 _ hrest (by omega) (by omega)
    · exact ih 3 (v % 4) 0 _ hrest (by omega) (by omega)
    · exact ih 0 0 0 _ hrest (by omega) (by omega)

/-- A decimal digit or lowercase hex letter is in the base64 alphabet. -/
theorem b64val_isSome_of_lower_hex (c : Char)
    (h : (48 ≤ c.toNat ∧ c.toNat ≤ 57) ∨ (97 ≤ c.toNat ∧ c.toNat ≤ 102)) :
    (b64val c).isSome := by
  simp only [b64val]
  split_ifs <;> simp_all <;> omega

/-! ## Claim theorems -/

/-- C2 (code bug): the spec demands that a missing or malformed
`authorisationToSign` abort the purchase without signing empty bytes, but
on a purchase-instruction response without that field the code defaults it
to `""`, `_is_base64("")` is true (`b64decode("")` returns `b''`), and the
signer *is* invoked on the empty byte string — the flow then proceeds to
step 3 with the signature of `b''`.  The second component of the returned
pair is exactly the byte string handed to `keypair.sign`. -/
theorem purchase_missing_auth_signs_empty_bytes
    (sign : List Nat → List Nat) :
    signAuthorisation sign [] =
      some ([("authorisationToSign", Json.str (b64encodePy (sign [])))],
            []) := rfl

/-- C3: the detection step attempts base64 classification first and falls
back to hex — whenever `base64.b64decode` succeeds the decoded bytes are
its result, and every even-length hex-digit string on which base64
decoding raises is decoded (successfully) as hex. -/
theorem auth_encoding_detection_base64_first (s t : String) :
    ((b64decodePy s).isSome → decodeAuthBytes s = b64decodePy s) ∧
    ((∀ c ∈ t.data, (hexVal c).isSome) → t.data.length % 2 = 0 →
      ¬ (b64decodePy t).isSome →
      decodeAuthBytes t = fromhexPy t ∧ (fromhexPy t).isSome) := by
  refine ⟨decodeAuthBytes_of_b64 s, fun hall hmod hnot => ?_⟩
  exact ⟨decodeAuthBytes_of_not_b64 t hnot,
         fromhexGo_all_hex t.data.length t.data le_rfl hall hmod⟩

/-- Witness for C3: `"abcd"` decodes on the base64 branch; `"ab"` (a hex
string that is not valid base64 — `Incorrect padding`) decodes on the hex
branch. -/
theorem auth_encoding_detection_base64_first_witness :
    (decodeAuthBytes "abcd" = b64decodePy "abcd" ∧
      (b64decodePy "abcd").isSome) ∧
    (decodeAuthBytes "ab" = fromhexPy "ab" ∧ (fromhexPy "ab").isSome) :=
  ⟨⟨(auth_encoding_detection_base64_first "abcd" "ab").1 (by decide),
    by decide⟩,
   (auth_encoding_detection_base64_first "abcd" "ab").2
     (by decide) (by decide) (by decide)⟩

/-- C4: every string of characters drawn from `[0-9a-f]` whose length is a
multiple of 4 (nothing is discarded, since hex digits are all in the
base64 alphabet) passes `_is_base64`, so the detection step takes the
base64 branch on it and the hex branch is never reached — in particular
for 64-character lowercase transaction hashes. -/
theorem hex_payload_classified_as_base64 (s : String)
    (hd : ∀ c ∈ s.data,
      (48 ≤ c.toNat ∧ c.toNat ≤ 57) ∨ (97 ≤ c.toNat ∧ c.toNat ≤ 102))
    (hlen : s.data.length % 4 = 0) :
    isBase64 s = true ∧ decodeAuthBytes s = b64decodePy s := by
  have hascii : s.data.all (fun c => decide (c.toNat ≤ 127)) = true := by
    rw [List.all_eq_true]
    intro c hc
    have := hd c hc
    simp only [decide_eq_true_eq]
    omega
  have hsome : (b64decodePy s).isSome := by
    rw [b64decodePy, if_pos hascii]
    exact a2bBase64_all_alpha s.data 0 0 0 []
      (fun c hc => b64val_isSome_of_lower_hex c (hd c hc))
      (by omega) (by simpa using hlen)
  exact ⟨by simpa [isBase64] using hsome, decodeAuthBytes_of_b64 s hsome⟩

/-- Witness for C4: a 64-character lowercase transaction hash is taken by
the base64 branch. -/
theorem hex_payload_classified_as_base64_witness :
    isBase64 "a94a8fe5ccb19ba61c4c0873d391e987982fbbd3a94a8fe5ccb19ba61c4c0873"
      = true ∧
    decodeAuthBytes
        "a94a8fe5ccb19ba61c4c0873d391e987982fbbd3a94a8fe5ccb19ba61c4c0873" =
      b64decodePy
        "a94a8fe5ccb19ba61c4c0873d391e987982fbbd3a94a8fe5ccb19ba61c4c0873" :=
  hex_payload_classified_as_base64 _ (by decide) (by decide)

/-! ## C8: first-match quote lookup -/

/-- The route identifier inside a quote's `signableEntity` contains the
substring (with the scripts' defaults: missing `signableEntity` reads as
`{}`, missing `routeId` as `""`). -/
def quoteMatches (sub : String) (q : Json) : Bool :=
  match q with
  | Json.obj qd =>
    match getObjD qd "signableEntity" with
    | some se =>
      match getStrD se "routeId" with
      | some rid => containsSub sub.data rid.data
      | none => false
    | none => false
  | _ => false

/-- A quote on which the loop body cannot raise: a dict whose
`signableEntity` is absent or a dict, whose `routeId` in turn is absent or
a string. -/
def wfQuote (q : Json) : Bool :=
  match q with
  | Json.obj qd =>
    match getObjD qd "signableEntity" with
    | some se => (getStrD se "routeId").isSome
    | none => false
  | _ => false

/-- The scan over a well-formed quote list returns exactly the first match
(`List.find?`), and `none` — not an error — when nothing matches. -/
theorem findQuoteGo_eq_find? (sub : String) :
    ∀ l : List Json, (∀ q ∈ l, wfQuote q = true) →
      findQuoteGo sub.data l = some (l.find? (quoteMatches sub)) := by
  intro l
  induction l with
  | nil => intro _; simp [findQuoteGo]
  | cons q rest ih =>
    intro hwf
    have hq := hwf q (by simp)
    match q with
    | Json.null | Json.bool _ | Json.num _ | Json.str _ | Json.arr _ =>
      simp [wfQuote] at hq
    | Json.obj qd =>
      simp only [wfQuote] at hq
      cases hse : getObjD qd "signableEntity" with
      | none => rw [hse] at hq; simp at hq
      | some se =>
        rw [hse] at hq
        have hq' : (getStrD se "routeId").isSome = true := hq
        cases hrid : getStrD se "routeId" with
        | none => rw [hrid] at hq'; simp at hq'
        | some rid =>
          by_cases hm : containsSub sub.data rid.data
          · simp [findQuoteGo, hse, hrid, hm, List.find?_cons, quoteMatches]
          · simp only [findQuoteGo, hse, hrid, hm, if_false]
            rw [ih (fun x hx => hwf x (by simp [hx]))]
            simp [List.find?_cons, quoteMatches, hse, hrid, hm]

/-- C8: `find_quote_by_route_id` performs a first-match scan in
server-returned order — on a response whose `quotes` field is a list of
well-formed quotes it returns the first quote whose
`signableEntity.routeId` contains the substring, and returns `None`
(absent, not an error) when no quote matches. -/
theorem find_quote_first_match (quotes : List (String × Json))
    (l : List Json) (sub : String)
    (hget : dictGet quotes "quotes" = some (Json.arr l))
    (hwf : ∀ q ∈ l, wfQuote q = true) :
    findQuoteByRouteId quotes sub = some (l.find? (quoteMatches sub)) := by
  rw [findQuoteByRouteId, hget]
  exact findQuoteGo_eq_find? sub l hwf

/-- The quote of the spec's catalog scenario. -/
def demoQuote : Json :=
  Json.obj [("signableEntity", Json.obj
    [("routeId", Json.str "x-stablecoin-activate-account-y"),
     ("microUnitPrice", Json.num 50000)])]

/-- The catalog body of the spec's scenario. -/
def demoCatalog : List (String × Json) := [("quotes", Json.arr [demoQuote])]

/-- Witness for C8, the spec's scenario: a catalog holding one quote with
route id `x-stablecoin-activate-account-y` is resolved by the substring
`stablecoin-activate-account`; a substring offered by no quote yields
`None`. -/
theorem find_quote_first_match_witness :
    findQuoteByRouteId demoCatalog "stablecoin-activate-account" =
      some (some demoQuote) ∧
    findQuoteByRouteId demoCatalog "rpc-passthrough" = some none := by
  have hwf : ∀ q ∈ [demoQuote], wfQuote q = true := by
    intro q hq
    rw [List.mem_singleton] at hq
    subst hq
    rfl
  constructor
  · rw [find_quote_first_match demoCatalog [demoQuote]
        "stablecoin-activate-account" rfl hwf]
    rfl
  · rw [find_quote_first_match demoCatalog [demoQuote]
        "rpc-passthrough" rfl hwf]
    rfl

/-! ## C5: the bounded status-polling loop -/

/-- The observable trace of `m` consecutive loop iterations starting at
attempt `a`: a 2-second sleep immediately before every status call. -/
def pollTrace (a : Nat) : Nat → List PollEv
  | 0 => []
  | m + 1 => PollEv.sleep 2 :: PollEv.query a :: pollTrace (a + 1) m

/-- A status body the loop can process without raising: `status` absent or
a string. -/
def statusOk (r : List (String × Json)) : Bool :=
  match dictGet r "status" with
  | some (Json.str _) => true
  | none => true
  | some _ => false

/-- The call reported a terminal status (`success` or `failed`, compared
case-insensitively, the missing-field default `"unknown"` being
non-terminal). -/
def isTerminalResp (r : List (String × Json)) : Bool :=
  match dictGet r "status" with
  | some (Json.str s) => lowerStr s = "success" || lowerStr s = "failed"
  | _ => false

/-- The result the loop derives from a terminal status body. -/
def respResult (r : List (String × Json)) : PollResult :=
  match dictGet r "status" with
  | some (Json.str s) =>
    if lowerStr s = "success" then
      PollResult.success (getD r "ledger" (Json.str "pending"))
    else PollResult.failed (getD r "resultXdr" (Json.str "N/A"))
  | _ => PollResult.unknown

/-- Full characterisation of `pollGo`: on processable statuses it returns,
having made `m ≤ fuel` calls each preceded by a 2-second sleep, with all
calls before the last non-terminal, and the result is `unknown` with the
budget exhausted and no terminal status seen, or the terminal result of
the last call. -/
theorem pollGo_spec (st : Nat → List (String × Json)) :
    ∀ (fuel a : Nat) (tr : List PollEv),
      (∀ i, a ≤ i → i < a + fuel → statusOk (st i) = true) →
      ∃ res m, pollGo st a fuel tr = some (res, tr ++ pollTrace a m) ∧
        m ≤ fuel ∧
        (∀ k, k + 1 < m → isTerminalResp (st (a + k)) = false) ∧
        ((res = PollResult.unknown ∧ m = fuel ∧
            ∀ k, k < fuel → isTerminalResp (st (a + k)) = false) ∨
         (0 < m ∧ isTerminalResp (st (a + (m - 1))) = true ∧
            res = respResult (st (a + (m - 1))))) := by
  intro fuel
  induction fuel with
  | zero =>
    intro a tr _
    exact ⟨.unknown, 0, by simp [pollGo, pollTrace], le_rfl,
      fun k hk => absurd hk (by omega),
      Or.inl ⟨rfl, rfl, fun k hk => absurd hk (by omega)⟩⟩
  | succ fuel ih =>
    intro a tr h
    have hok : statusOk (st a) = true := h a le_rfl (by omega)
    have hcont :
        pollGo st a (fuel + 1) tr =
          pollGo st (a + 1) fuel (tr ++ [PollEv.sleep 2, PollEv.query a]) →
        isTerminalResp (st a) = false →
        ∃ res m, pollGo st a (fuel + 1) tr = some (res, tr ++ pollTrace a m) ∧
          m ≤ fuel + 1 ∧
          (∀ k, k + 1 < m → isTerminalResp (st (a + k)) = false) ∧
          ((res = PollResult.unknown ∧ m = fuel + 1 ∧
              ∀ k, k < fuel + 1 → isTerminalResp (st (a + k)) = false) ∨
           (0 < m ∧ isTerminalResp (st (a + (m - 1))) = true ∧
              res = respResult (st (a + (m - 1))))) := by
      intro hgo hnt
      obtain ⟨res, m, hpoll, hm, hpre, hres⟩ :=
        ih (a + 1) (tr ++ [PollEv.sleep 2, PollEv.query a])
          (fun i h1 h2 => h i (by omega) (by omega))
      refine ⟨res, m + 1, ?_, by omega, ?_, ?_⟩
      · rw [hgo, hpoll]
        simp [pollTrace, List.append_assoc]
      · intro k hk
        match k with
        | 0 => simpa using hnt
        | k' + 1 =>
          have := hpre k' (by omega)
          rwa [show a + 1 + k' = a + (k' + 1) by omega] at this
      · rcases hres with ⟨hu, hmf, hall⟩ | ⟨hp, hterm, hr⟩
        · refine Or.inl ⟨hu, by omega, fun k hk => ?_⟩
          match k with
          | 0 => simpa using hnt
          | k' + 1 =>
            have := hall k' (by omega)
            rwa [show a + 1 + k' = a + (k' + 1) by omega] at this
        · refine Or.inr ⟨by omega, ?_, ?_⟩
          · rwa [show a + (m + 1 - 1) = a + 1 + (m - 1) by omega]
          · rwa [show a + (m + 1 - 1) = a + 1 + (m - 1) by omega]
    cases hst : dictGet (st a) "status" with
    | none =>
      exact hcont (by simp [pollGo, hst]) (by simp [isTerminalResp, hst])
    | some v =>
      match v with
      | Json.null | Json.bool _ | Json.num _ | Json.arr _ | Json.obj _ =>
        rw [statusOk, hst] at hok <;> simp at hok
      | Json.str s =>
        by_cases hsucc : lowerStr s = "success"
        · refine ⟨PollResult.success (getD (st a) "ledger" (Json.str "pending")),
            1, ?_, by omega, fun k hk => absurd hk (by omega), Or.inr ⟨by omega, ?_, ?_⟩⟩
          · simp [pollGo, hst, hsucc, pollTrace]
          · simp [isTerminalResp, hst, hsucc]
          · simp [respResult, hst, hsucc]
        · by_cases hfail : lowerStr s = "failed"
          · refine ⟨PollResult.failed (getD (st a) "resultXdr" (Json.str "N/A")),
              1, ?_, by omega, fun k hk => absurd hk (by omega), Or.inr ⟨by omega, ?_, ?_⟩⟩
            · simp [pollGo, hst, hsucc, hfail, pollTrace]
            · simp [isTerminalResp, hst, hfail]
            · simp [respResult, hst, hsucc, hfail]
          · exact hcont (by simp [pollGo, hst, hsucc, hfail])
              (by simp [isTerminalResp, hst, hsucc, hfail])

/-- The status body `{status: "pending"}`. -/
def pendingResp : List (String × Json) := [("status", Json.str "pending")]

/-- The status body `{status: "success", ledger: 12345}`. -/
def successResp : List (String × Json) :=
  [("status", Json.str "success"), ("ledger", Json.num 12345)]

/-- The spec's polling scenario: 19 `pending` responses, then `success`
with a ledger on the 20th call. -/
def scenarioSt (i : Nat) : List (String × Json) :=
  if i < 19 then pendingResp else successResp

/-- C5: on status bodies the loop can process, the polling loop makes at
most 20 status calls, each immediately preceded by a 2-second sleep (the
trace is `pollTrace 0 m`), stops at the first terminal (`success`/`failed`)
status, and yields `unknown` exactly when none of the 20 calls was
terminal; and the 19×`pending`-then-`success` scenario returns that
terminal success (ledger 12345) on exactly the 20th call. -/
theorem poll_loop_bounded_first_terminal
    (st : Nat → List (String × Json))
    (h : ∀ i, i < 20 → statusOk (st i) = true) :
    (∃ res m, pollStatus st = some (res, pollTrace 0 m) ∧ m ≤ 20 ∧
      (∀ k, k + 1 < m → isTerminalResp (st k) = false) ∧
      ((res = PollResult.unknown ∧ m = 20 ∧
          ∀ k, k < 20 → isTerminalResp (st k) = false) ∨
       (0 < m ∧ isTerminalResp (st (m - 1)) = true ∧
          res = respResult (st (m - 1))))) ∧
    pollStatus scenarioSt =
      some (PollResult.success (Json.num 12345), pollTrace 0 20) := by
  constructor
  · obtain ⟨res, m, hpoll, hm, hpre, hres⟩ :=
      pollGo_spec st 20 0 [] (fun i h1 h2 => h i (by omega))
    refine ⟨res, m, by simpa [pollStatus] using hpoll, hm, ?_, ?_⟩
    · intro k hk
      simpa using hpre k hk
    · rcases hres with ⟨hu, hmf, hall⟩ | ⟨hp, hterm, hr⟩
      · exact Or.inl ⟨hu, hmf, fun k hk => by simpa using hall k hk⟩
      · exact Or.inr ⟨hp, by simpa using hterm, by simpa using hr⟩
  · rfl

/-- Witness for C5: the general property applied to the concrete
19×`pending`-then-`success` run (every status body of which is
processable). -/
theorem poll_loop_bounded_first_terminal_witness :
    ∃ res m, pollStatus scenarioSt = some (res, pollTrace 0 m) ∧ m ≤ 20 ∧
      (∀ k, k + 1 < m → isTerminalResp (scenarioSt k) = false) ∧
      ((res = PollResult.unknown ∧ m = 20 ∧
          ∀ k, k < 20 → isTerminalResp (scenarioSt k) = false) ∨
       (0 < m ∧ isTerminalResp (scenarioSt (m - 1)) = true ∧
          res = respResult (scenarioSt (m - 1)))) :=
  (poll_loop_bounded_first_terminal scenarioSt (by decide)).1

/-! ## C1 and C9: the activation flow after phase 1 -/

/-- A phase-1 response carrying `ticket` and `trustlineTransactionXdr` but
no `trustlineTransactionHash`. -/
def phase1NoHash : List (String × Json) :=
  [("ticket", Json.str "TICKET"), ("trustlineTransactionXdr", Json.str "XDR")]

/-- Counterexample to C1 as stated: the guard checks only `ticket` and
`trustlineTransactionXdr`.  On a phase-1 response where those two are
present but `trustlineTransactionHash` is missing, the flow does *not*
terminate at phase 1 as a successful activation-without-trustlines — it
passes the guard, enters phase 2, and aborts with an uncaught `TypeError`
at `bytes.fromhex(None)`. -/
theorem activation_guard_ignores_hash_cex :
    dictGet phase1NoHash "trustlineTransactionHash" = none ∧
    activationAfterPhase1 (fun bs => bs) (fun bs => bs) "GNEW" phase1NoHash =
      ActOutcome.errorAbort ∧
    ActOutcome.errorAbort ≠ ActOutcome.doneNoTrustlines :=
  ⟨rfl, rfl, fun h => ActOutcome.noConfusion h⟩

/-- C1 (amended): the flow terminates at phase 1 as a successful
activation-without-trustlines exactly when `ticket` or
`trustlineTransactionXdr` is missing/falsy; `trustlineTransactionHash` is
not consulted by the guard — whenever the two guarded fields are truthy
the flow leaves phase 1 and enters the phase-2 section, and if the hash is
missing there it aborts with an uncaught error (still issuing zero phase-2
network calls) instead of terminating successfully. -/
theorem activation_guard_two_fields (payerSign newSign : List Nat → List Nat)
    (pub : String) (p1 : List (String × Json)) :
    ((truthyO (dictGet p1 "ticket") = false ∨
        truthyO (dictGet p1 "trustlineTransactionXdr") = false) →
      activationAfterPhase1 payerSign newSign pub p1 =
        ActOutcome.doneNoTrustlines) ∧
    (truthyO (dictGet p1 "ticket") = true →
      truthyO (dictGet p1 "trustlineTransactionXdr") = true →
      activationAfterPhase1 payerSign newSign pub p1 ≠
        ActOutcome.doneNoTrustlines) ∧
    (truthyO (dictGet p1 "ticket") = true →
      truthyO (dictGet p1 "trustlineTransactionXdr") = true →
      dictGet p1 "trustlineTransactionHash" = none →
      activationAfterPhase1 payerSign newSign pub p1 =
        ActOutcome.errorAbort) := by
  refine ⟨fun h => ?_, fun h1 h2 => ?_, fun h1 h2 h3 => ?_⟩
  · simp only [activationAfterPhase1]
    rw [if_pos h]
  · cases hticket : dictGet p1 "ticket" with
    | none => rw [hticket] at h1; simp [truthyO] at h1
    | some tv =>
      rw [hticket] at h1
      simp only [activationAfterPhase1, hticket]
      rw [if_neg (by simp [h1, h2])]
      by_cases hsl : sliceable tv
      · rw [if_pos hsl]
        split
        · split
          · simp
          · simp
        · simp
      · rw [if_neg hsl]
        simp
  · cases hticket : dictGet p1 "ticket" with
    | none => rw [hticket] at h1; simp [truthyO] at h1
    | some tv =>
      rw [hticket] at h1
      simp only [activationAfterPhase1, hticket]
      rw [if_neg (by simp [h1, h2]), h3]
      by_cases hsl : sliceable tv
      · rw [if_pos hsl]
      · rw [if_neg hsl]

/-- Witness for C1 (amended), at concrete inputs: a response missing
`ticket` terminates as activation-without-trustlines; `phase1NoHash`
(ticket and XDR present, hash absent) enters phase 2 and aborts. -/
theorem activation_guard_two_fields_witness :
    activationAfterPhase1 (fun bs => bs) (fun bs => bs) "GNEW"
        [("trustlineTransactionXdr", Json.str "XDR")] =
      ActOutcome.doneNoTrustlines ∧
    activationAfterPhase1 (fun bs => bs) (fun bs => bs) "GNEW" phase1NoHash ≠
      ActOutcome.doneNoTrustlines ∧
    activationAfterPhase1 (fun bs => bs) (fun bs => bs) "GNEW" phase1NoHash =
      ActOutcome.errorAbort :=
  ⟨(activation_guard_two_fields (fun bs => bs) (fun bs => bs) "GNEW"
      [("trustlineTransactionXdr", Json.str "XDR")]).1 (Or.inl rfl),
   (activation_guard_two_fields (fun bs => bs) (fun bs => bs) "GNEW"
      phase1NoHash).2.1 rfl rfl,
   (activation_guard_two_fields (fun bs => bs) (fun bs => bs) "GNEW"
      phase1NoHash).2.2 rfl rfl rfl⟩

/-- C9: once phase 2 is reached with a hex `trustlineTransactionHash`, the
bytes signed are exactly its hex decoding, the signing function is the
*new account's* (`newSign` — the result does not depend on `payerSign`),
and the body POSTed carries `publicKey`/`callerAccount` = the new
account's key and `rawSignature` = the base64 of that signature. -/
theorem activation_phase2_signs_hash_with_new_key
    (payerSign newSign : List Nat → List Nat) (pub : String)
    (p1 : List (String × Json)) (tv xv : Json) (h : String) (hb : List Nat)
    (hticket : dictGet p1 "ticket" = some tv) (htv : truthy tv = true)
    (hsl : sliceable tv = true)
    (hxdr : dictGet p1 "trustlineTransactionXdr" = some xv)
    (hxv : truthy xv = true)
    (hhash : dictGet p1 "trustlineTransactionHash" = some (Json.str h))
    (hhex : fromhexPy h = some hb) :
    activationAfterPhase1 payerSign newSign pub p1 =
      ActOutcome.phase2Call
        [("publicKey", Json.str pub), ("ticket", tv),
         ("callerAccount", Json.str pub),
         ("rawSignature", Json.str (b64encodePy (newSign hb)))] := by
  simp only [activationAfterPhase1, hticket, hhash, hhex]
  rw [if_neg (by simp [truthyO, hxdr, htv, hxv]), if_pos hsl]

/-- Witness for C9 at a concrete phase-1 response: the hash `deadbeef`
hex-decodes to the four bytes signed with the new account's key. -/
theorem activation_phase2_signs_hash_witness :
    activationAfterPhase1 (fun bs => bs) (fun bs => List.reverse bs) "GNEW"
        [("ticket", Json.str "T"),
         ("trustlineTransactionXdr", Json.str "X"),
         ("trustlineTransactionHash", Json.str "deadbeef")] =
      ActOutcome.phase2Call
        [("publicKey", Json.str "GNEW"), ("ticket", Json.str "T"),
         ("callerAccount", Json.str "GNEW"),
         ("rawSignature",
          Json.str (b64encodePy (List.reverse [222, 173, 190, 239])))] :=
  activation_phase2_signs_hash_with_new_key
    (fun bs => bs) (fun bs => List.reverse bs) "GNEW" _
    (Json.str "T") (Json.str "X") "deadbeef" [222, 173, 190, 239]
    rfl (by decide) rfl rfl (by decide) rfl rfl

/-! ## C7 and C10: step 4 of the purchase flow -/

/-- C7: if `signableEntity.signature` is a present, non-empty (base64)
string, step 4 base64-decodes it, signs the bytes, and writes the base64
signature to the token's *top-level* `signature` key; if the field is
absent or empty, no signing happens and the token is serialized exactly as
received. -/
theorem token_signing_step (sign : List Nat → List Nat)
    (tok se : List (String × Json)) (s : String) (bs : List Nat) :
    (getObjD tok "signableEntity" = some se →
      dictGet se "signature" = some (Json.str s) → s ≠ "" →
      b64decodePy s = some bs →
      signAccessToken sign tok =
        some (dictSet tok "signature" (Json.str (b64encodePy (sign bs))))) ∧
    (getObjD tok "signableEntity" = some se →
      (dictGet se "signature" = none ∨
        dictGet se "signature" = some (Json.str "")) →
      signAccessToken sign tok = some tok) := by
  constructor
  · intro hse hsig hne hb
    simp [signAccessToken, hse, hsig, truthy, hne, hb]
  · intro hse hsig
    rcases hsig with hsig | hsig
    · simp [signAccessToken, hse, hsig, truthy]
    · simp [signAccessToken, hse, hsig, truthy]

/-- The access token used in the step-4 witnesses: `signableEntity`
carries the base64 `"QUJD"` (bytes `ABC`), plus an unrelated field. -/
def demoToken : List (String × Json) :=
  [("signableEntity", Json.obj [("signature", Json.str "QUJD"),
                                ("routeId", Json.str "r")]),
   ("other", Json.num 7)]

/-- An access token whose `signableEntity` has no `signature`. -/
def demoTokenUnsigned : List (String × Json) :=
  [("signableEntity", Json.obj [("routeId", Json.str "r")])]

/-- Witness for C7: on `demoToken` the doubled-bytes signer writes the
base64 of `sign(ABC)` to the top-level `signature`; on
`demoTokenUnsigned` the token is returned untouched. -/
theorem token_signing_step_witness :
    signAccessToken (fun bs => bs ++ bs) demoToken =
      some (dictSet demoToken "signature"
        (Json.str (b64encodePy ([65, 66, 67] ++ [65, 66, 67])))) ∧
    signAccessToken (fun bs => bs ++ bs) demoTokenUnsigned =
      some demoTokenUnsigned :=
  ⟨(token_signing_step (fun bs => bs ++ bs) demoToken
      [("signature", Json.str "QUJD"), ("routeId", Json.str "r")]
      "QUJD" [65, 66, 67]).1 rfl rfl (by decide) (by decide),
   (token_signing_step (fun bs => bs ++ bs) demoTokenUnsigned
      [("routeId", Json.str "r")] "QUJD" [65, 66, 67]).2 rfl (Or.inl rfl)⟩

/-- C10 (frame property): between receiving the access token (step 3) and
serializing it (step 5), the flow modifies at most the token's top-level
`signature` key — the lookup of every other key, including
`signableEntity` itself (whose nested `signature` supplied the signed
bytes), is exactly as the server returned it. -/
theorem token_signing_frame (sign : List Nat → List Nat)
    (tok tok' : List (String × Json)) (k : String)
    (hrun : signAccessToken sign tok = some tok')
    (hk : k ≠ "signature") :
    dictGet tok' k = dictGet tok k := by
  simp only [signAccessToken] at hrun
  cases hse : getObjD tok "signableEntity" with
  | none => rw [hse] at hrun; simp at hrun
  | some se =>
    rw [hse] at hrun
    simp only [Option.bind_eq_bind, Option.some_bind] at hrun
    by_cases ht : truthy (match dictGet se "signature" with
                          | none => Json.str ""
                          | some v => v) = true
    · rw [if_pos ht] at hrun
      cases hm : (match (match dictGet se "signature" with
                         | none => Json.str ""
                         | some v => v) with
                  | Json.str s => some s
                  | _ => (none : Option String)) with
      | none => rw [hm] at hrun; simp at hrun
      | some s =>
        rw [hm] at hrun
        simp only [Option.some_bind] at hrun
        cases hb : b64decodePy s with
        | none => rw [hb] at hrun; simp at hrun
        | some bs =>
          rw [hb] at hrun
          simp only [Option.some_bind, Option.some.injEq] at hrun
          rw [← hrun]
          exact dictGet_dictSet_ne tok "signature" k _ hk
    · rw [if_neg ht] at hrun
      simp only [Option.some.injEq] at hrun
      rw [← hrun]

/-- Witness for C10: on `demoToken` (signed with the identity signer) the
`signableEntity` and `other` entries survive step 4 unchanged. -/
theorem token_signing_frame_witness :
    dictGet (dictSet demoToken "signature" (Json.str "QUJD"))
        "signableEntity" = dictGet demoToken "signableEntity" ∧
    dictGet (dictSet demoToken "signature" (Json.str "QUJD")) "other" =
      dictGet demoToken "other" :=
  ⟨token_signing_frame (fun bs => bs) demoToken _ "signableEntity" rfl
      (by decide),
   token_signing_frame (fun bs => bs) demoToken _ "other" rfl (by decide)⟩

/-! ## C6, part 1: decimal printing / parsing -/

/-- `digitCh` always produces a decimal digit character. -/
theorem digitCh_isDigit : ∀ d, isDigitCh (digitCh d) = true := by
  intro d
  match d with
  | 0 | 1 | 2 | 3 | 4 | 5 | 6 | 7 | 8 => decide
  | n + 9 =>
    show isDigitCh '9' = true
    decide

/-- Value of a digit character produced from `d < 10`. -/
theorem digitCh_toNat : ∀ d, d < 10 → (digitCh d).toNat = 48 + d := by
  intro d hd
  match d with
  | 0 | 1 | 2 | 3 | 4 | 5 | 6 | 7 | 8 | 9 => decide
  | n + 10 => omega

/-- Every character of `natCharsRev n` is a digit. -/
theorem natCharsRev_digits : ∀ n, ∀ c ∈ natCharsRev n, isDigitCh c = true := by
  intro n
  induction n using Nat.strong_induction_on with
  | _ n ih =>
    rw [natCharsRev]
    split
    · intro c hc
      rw [List.mem_singleton] at hc
      subst hc
      exact digitCh_isDigit n
    · intro c hc
      rcases List.mem_cons.mp hc with rfl | hc
      · exact digitCh_isDigit (n % 10)
      · exact ih (n / 10) (Nat.div_lt_self (by omega) (by omega)) c hc

/-- Every character of `natChars n` is a digit. -/
theorem natChars_digits (n : Nat) : ∀ c ∈ natChars n, isDigitCh c = true := by
  intro c hc
  exact natCharsRev_digits n c (List.mem_reverse.mp hc)

/-- `natChars` is never empty. -/
theorem natChars_ne_nil (n : Nat) : natChars n ≠ [] := by
  rw [natChars, natCharsRev]
  split
  · simp
  · simp

/-- The accumulator fold giving the numeric value of a digit string. -/
def digitsVal (acc : Nat) (cs : List Char) : Nat :=
  cs.foldl (fun a c => a * 10 + (c.toNat - 48)) acc

/-- `natChars` prints the value that `digitsVal` reads back. -/
theorem digitsVal_natChars : ∀ n, digitsVal 0 (natChars n) = n := by
  intro n
  induction n using Nat.strong_induction_on with
  | _ n ih =>
    by_cases h : n < 10
    · rw [natChars, natCharsRev]
      rw [dif_pos h]
      simp [digitsVal, digitCh_toNat n h]
    · have hrev : natChars n = natChars (n / 10) ++ [digitCh (n % 10)] := by
        rw [natChars, natCharsRev, dif_neg h]
        simp [natChars]
      rw [hrev, digitsVal, List.foldl_append]
      have := ih (n / 10) (Nat.div_lt_self (by omega) (by omega))
      rw [digitsVal] at this
      rw [this]
      simp only [List.foldl_cons, List.foldl_nil]
      rw [digitCh_toNat (n % 10) (by omega)]
      omega

/-- Parsers may not continue into the following characters: the remainder
must not begin with a digit. -/
def noDigitHead : List Char → Prop
  | [] => True
  | c :: _ => isDigitCh c = false

/-- `parseNatGo` consumes exactly a leading all-digit block. -/
theorem parseNatGo_append :
    ∀ (ds rest : List Char) (acc : Nat),
      (∀ c ∈ ds, isDigitCh c = true) → noDigitHead rest →
      parseNatGo (ds ++ rest) acc = (digitsVal acc ds, rest) := by
  intro ds
  induction ds with
  | nil =>
    intro rest acc _ hrest
    match rest with
    | [] => simp [parseNatGo, digitsVal]
    | c :: r' =>
      have : isDigitCh c = false := hrest
      simp [parseNatGo, this, digitsVal]
  | cons d ds' ih =>
    intro rest acc hds hrest
    have hd : isDigitCh d = true := hds d (by simp)
    have hstep : parseNatGo ((d :: ds') ++ rest) acc
        = parseNatGo (ds' ++ rest) (acc * 10 + (d.toNat - 48)) := by
      simp [parseNatGo, hd]
    rw [hstep, ih rest _ (fun c hc => hds c (by simp [hc])) hrest]
    simp [digitsVal]

/-! ## C6, part 2: plain strings and percent-encoding -/

/-- A plain character is rendered verbatim by the string escaper. -/
theorem escChar_plain (c : Char) (h : plainChar c = true) :
    escChar c = [c] := by
  simp only [plainChar, decide_eq_true_eq] at h
  obtain ⟨h1, h2, h3, h4⟩ := h
  simp only [escChar]
  rw [if_neg (fun e => by subst e; exact h3 rfl),
      if_neg (fun e => by subst e; exact h4 rfl),
      if_neg (by omega), if_neg (by omega), if_neg (by omega),
      if_neg (by omega), if_neg (by omega), if_neg (by omega)]

/-- A plain string is rendered verbatim inside its quotes. -/
theorem escString_plain :
    ∀ cs : List Char, (∀ c ∈ cs, plainChar c = true) → escString cs = cs := by
  intro cs
  induction cs with
  | nil => intro _; rfl
  | cons c rest ih =>
    intro h
    rw [escString, escChar_plain c (h c (by simp)),
        ih (fun x hx => h x (by simp [hx]))]
    rfl

/-- `takeWhile`/`dropWhile` split a quote-free block at the closing
quote. -/
theorem span_no_quote :
    ∀ (l r : List Char), (∀ c ∈ l, (c == '"') = false) →
      (l ++ '"' :: r).takeWhile (fun x => !(x == '"')) = l ∧
      (l ++ '"' :: r).dropWhile (fun x => !(x == '"')) = '"' :: r := by
  intro l
  induction l with
  | nil => intro r _; constructor <;> simp
  | cons c l' ih =>
    intro r h
    have hc : (c == '"') = false := h c (by simp)
    obtain ⟨ht, hd⟩ := ih r (fun x hx => h x (by simp [hx]))
    constructor
    · simp [List.takeWhile_cons, hc, ht]
    · simp [List.dropWhile_cons, hc, hd]

/-- Members of the always-safe set are not `%`. -/
theorem alwaysSafe_ne_pct (c : Char) (h : alwaysSafe c = true) : c ≠ '%' :=
  fun e => by subst e; exact absurd h (by decide)

/-- `hexVal` inverts `hexChUpper` below 16. -/
theorem hexVal_hexChUpper (d : Nat) (hd : d < 16) :
    hexVal (hexChUpper d) = some d := by
  interval_cases d <;> decide

/-- Percent-decoding inverts percent-encoding on ASCII character lists
(the image of `quote` on the serializer's output). -/
theorem pctUnquote_pctQuote :
    ∀ cs : List Char, (∀ c ∈ cs, c.toNat < 128) →
      pctUnquote (pctQuote cs) = cs := by
  intro cs
  induction cs with
  | nil => intro _; simp [pctQuote, pctUnquote]
  | cons c rest ih =>
    intro h
    have hc : c.toNat < 128 := h c (by simp)
    have hrest := ih (fun x hx => h x (by simp [hx]))
    rw [pctQuote]
    by_cases hs : alwaysSafe c
    · rw [quoteChar, if_pos hs]
      simp only [List.cons_append, List.nil_append]
      rw [pctUnquote.eq_def]
      simp only []
      rw [if_neg (alwaysSafe_ne_pct c hs), hrest]
    · rw [quoteChar, if_neg hs, utf8Enc, if_pos hc]
      simp only [List.foldr_cons, List.foldr_nil, List.cons_append,
        List.nil_append]
      rw [pctUnquote.eq_def]
      simp only [if_true]
      rw [hexVal_hexChUpper (c.toNat / 16) (by omega),
          hexVal_hexChUpper (c.toNat % 16) (by omega)]
      show Char.ofNat (c.toNat / 16 * 16 + c.toNat % 16) ::
          pctUnquote (pctQuote rest) = c :: rest
      rw [hrest]
      have heq : c.toNat / 16 * 16 + c.toNat % 16 = c.toNat := by omega
      rw [heq, Char.ofNat_toNat]

/-! ## C6, part 3: structural facts about the serializer -/

/-- Parsing any value needs at least one unit of fuel. -/
theorem fuelOf_pos : ∀ j, 1 ≤ fuelOf j := by
  intro j
  cases j <;> simp [fuelOf]

/-- A non-empty element list needs fuel. -/
theorem sumFuel_pos : ∀ l : List Json, l ≠ [] → 1 ≤ sumFuel l := by
  intro l h
  match l with
  | [] => exact absurd rfl h
  | x :: xs => simp [sumFuel]; omega

/-- A non-empty member list needs fuel. -/
theorem sumFuelKV_pos :
    ∀ kvs : List (String × Json), kvs ≠ [] → 1 ≤ sumFuelKV kvs := by
  intro kvs h
  match kvs with
  | [] => exact absurd rfl h
  | (k, v) :: tl => simp [sumFuelKV]; omega

/-- Digit characters lie in `['0','9']`. -/
theorem isDigitCh_bounds (c : Char) (h : isDigitCh c = true) :
    48 ≤ c.toNat ∧ c.toNat ≤ 57 := by
  simpa [isDigitCh] using h

/-- A digit character is none of the grammar's marker characters. -/
theorem digit_ne_markers (c : Char) (h : isDigitCh c = true) :
    c ≠ 'n' ∧ c ≠ 't' ∧ c ≠ 'f' ∧ c ≠ '"' ∧ c ≠ '[' ∧ c ≠ '\x7b' ∧
    c ≠ '-' ∧ c ≠ ']' ∧ c ≠ '\x7d' := by
  refine ⟨?_, ?_, ?_, ?_, ?_, ?_, ?_, ?_, ?_⟩ <;>
    (intro e; subst e; exact absurd h (by decide))

/-- The serialization of a value starts with one of the grammar's
distinguishing first characters, never with a closing bracket. -/
theorem dumpVal_head : ∀ j, ∃ c tl, dumpVal j = c :: tl ∧
    (c = 'n' ∨ c = 't' ∨ c = 'f' ∨ c = '"' ∨ c = '[' ∨ c = '\x7b' ∨
     c = '-' ∨ isDigitCh c = true) := by
  intro j
  cases j with
  | null => exact ⟨'n', ['u', 'l', 'l'], by simp [dumpVal], by simp⟩
  | bool b =>
    cases b
    · exact ⟨'f', ['a', 'l', 's', 'e'], by simp [dumpVal], by simp⟩
    · exact ⟨'t', ['r', 'u', 'e'], by simp [dumpVal], by simp⟩
  | num i =>
    cases i with
    | ofNat n =>
      cases hnc : natChars n with
      | nil => exact absurd hnc (natChars_ne_nil n)
      | cons d ds =>
        refine ⟨d, ds, by simp [dumpVal, intChars, hnc], ?_⟩
        have : isDigitCh d = true := natChars_digits n d (by simp [hnc])
        tauto
    | negSucc m =>
      exact ⟨'-', natChars (m + 1), by simp [dumpVal, intChars], by simp⟩
  | str s =>
    exact ⟨'"', escString s.data ++ ['"'], by simp [dumpVal], by simp⟩
  | arr l =>
    exact ⟨'[', dumpElems l ++ [']'], by simp [dumpVal], by simp⟩
  | obj kvs =>
    exact ⟨'\x7b', dumpMembers kvs ++ ['\x7d'], by simp [dumpVal], by simp⟩

/-- Every character the serializer emits on a plain value is ASCII. -/
theorem dump_ascii : ∀ N : Nat,
    (∀ j, fuelOf j ≤ N → plainV j = true →
      ∀ c ∈ dumpVal j, c.toNat < 128) ∧
    (∀ l, sumFuel l ≤ N → plainL l = true →
      ∀ c ∈ dumpElems l, c.toNat < 128) ∧
    (∀ kvs, sumFuelKV kvs ≤ N → plainKV kvs = true →
      ∀ c ∈ dumpMembers kvs, c.toNat < 128) := by
  intro N
  induction N with
  | zero =>
    refine ⟨fun j hf _ => absurd hf (by have := fuelOf_pos j; omega),
            fun l hf hp => ?_, fun kvs hf hp => ?_⟩
    · match l with
      | [] => simp [dumpElems]
      | x :: xs => exact absurd hf (by have := sumFuel_pos (x :: xs) (by simp); omega)
    · match kvs with
      | [] => simp [dumpMembers]
      | (k, v) :: tl =>
        exact absurd hf (by have := sumFuelKV_pos ((k, v) :: tl) (by simp); omega)
  | succ N ihN =>
    obtain ⟨ihA, ihB, ihC⟩ := ihN
    refine ⟨fun j hf hp => ?_, fun l hf hp => ?_, fun kvs hf hp => ?_⟩
    · cases j with
      | null =>
        intro c hc
        simp [dumpVal] at hc
        rcases hc with rfl | rfl | rfl | rfl <;> decide
      | bool b =>
        cases b <;>
          (intro c hc
           simp [dumpVal] at hc
           rcases hc with rfl | rfl | rfl | rfl | rfl <;> decide)
      | num i =>
        intro c hc
        cases i with
        | ofNat n =>
          simp [dumpVal, intChars] at hc
          have := isDigitCh_bounds c (natChars_digits n c hc)
          omega
        | negSucc m =>
          simp [dumpVal, intChars] at hc
          rcases hc with rfl | hc
          · decide
          · have := isDigitCh_bounds c (natChars_digits (m + 1) c hc)
            omega
      | str s =>
        intro c hc
        have hplain : ∀ c ∈ s.data, plainChar c = true := by
          simpa [plainV, List.all_eq_true] using hp
        rw [dumpVal.eq_def] at hc
        simp [escString_plain s.data hplain] at hc
        rcases hc with rfl | hc | rfl
        · decide
        · have := hplain c hc
          simp [plainChar] at this
          omega
        · decide
      | arr l =>
        intro c hc
        simp [dumpVal] at hc
        rcases hc with rfl | hc | rfl
        · decide
        · have h1 : sumFuel l ≤ N := by simp [fuelOf] at hf; omega
          have h2 : plainL l = true := by simpa [plainV] using hp
          exact ihB l h1 h2 c hc
        · decide
      | obj kvs =>
        intro c hc
        simp [dumpVal] at hc
        rcases hc with rfl | hc | rfl
        · decide
        · have h1 : sumFuelKV kvs ≤ N := by simp [fuelOf] at hf; omega
          have h2 : plainKV kvs = true := by simpa [plainV] using hp
          exact ihC kvs h1 h2 c hc
        · decide
    · match l with
      | [] => simp [dumpElems]
      | [x] =>
        intro c hc
        rw [dumpElems.eq_def] at hc
        simp at hc
        have h1 : fuelOf x ≤ N := by simp [sumFuel] at hf; omega
        have h2 : plainV x = true := by simpa [plainL] using hp
        exact ihA x h1 h2 c hc
      | x :: x2 :: xs =>
        intro c hc
        rw [dumpElems.eq_def] at hc
        simp at hc
        have h1 : fuelOf x ≤ N := by simp [sumFuel] at hf; omega
        have h3 : sumFuel (x2 :: xs) ≤ N := by simp [sumFuel] at hf ⊢; omega
        have hp2 : plainV x = true ∧ plainL (x2 :: xs) = true := by
          have := hp
          simp [plainL] at this
          simp [plainL]
          tauto
        rcases hc with hc | rfl | hc
        · exact ihA x h1 hp2.1 c hc
        · decide
        · exact ihB (x2 :: xs) h3 hp2.2 c hc
    · match kvs with
      | [] => simp [dumpMembers]
      | [(k, v)] =>
        intro c hc
        have hpk : (k.data.all plainChar && (plainV v && true)) = true := by
          simpa [plainKV, plainL] using hp
        simp only [Bool.and_eq_true] at hpk
        have hplain : ∀ c ∈ k.data, plainChar c = true := by
          simpa [List.all_eq_true] using hpk.1
        rw [dumpMembers.eq_def] at hc
        simp [escString_plain k.data hplain] at hc
        have h1 : fuelOf v ≤ N := by simp [sumFuelKV] at hf; omega
        rcases hc with rfl | hc | rfl | rfl | hc
        · decide
        · have := hplain c hc
          simp [plainChar] at this
          omega
        · decide
        · decide
        · exact ihA v h1 hpk.2.1 c hc
      | (k, v) :: kv2 :: tl =>
        intro c hc
        have hpk := hp
        simp [plainKV] at hpk
        obtain ⟨⟨hplain, hv1⟩, hrest2⟩ := hpk
        have hnext : plainKV (kv2 :: tl) = true := by
          simp [plainKV]
          tauto
        rw [dumpMembers.eq_def] at hc
        simp [escString_plain k.data hplain] at hc
        have h1 : fuelOf v ≤ N := by simp [sumFuelKV] at hf; omega
        have h3 : sumFuelKV (kv2 :: tl) ≤ N := by
          simp [sumFuelKV] at hf ⊢
          omega
        rcases hc with rfl | hc | rfl | rfl | hc | rfl | hc
        · decide
        · have := hplain c hc
          simp [plainChar] at this
          omega
        · decide
        · decide
        · exact ihA v h1 hv1 c hc
        · decide
        · exact ihC (kv2 :: tl) h3 hnext c hc

/-- The fuel needed to parse a value never exceeds the length of its
serialization (so `length + 1` always suffices). -/
theorem fuel_le_dump_len : ∀ N : Nat,
    (∀ j, fuelOf j ≤ N → fuelOf j ≤ (dumpVal j).length) ∧
    (∀ l, sumFuel l ≤ N → sumFuel l ≤ (dumpElems l).length + 1) ∧
    (∀ kvs, sumFuelKV kvs ≤ N →
      sumFuelKV kvs ≤ (dumpMembers kvs).length + 1) := by
  intro N
  induction N with
  | zero =>
    refine ⟨fun j hf => absurd hf (by have := fuelOf_pos j; omega),
            fun l hf => ?_, fun kvs hf => ?_⟩
    · match l with
      | [] => simp [sumFuel]
      | x :: xs =>
        exact absurd hf (by have := sumFuel_pos (x :: xs) (by simp); omega)
    · match kvs with
      | [] => simp [sumFuelKV]
      | (k, v) :: tl =>
        exact absurd hf (by have := sumFuelKV_pos ((k, v) :: tl) (by simp); omega)
  | succ N ihN =>
    obtain ⟨ihA, ihB, ihC⟩ := ihN
    refine ⟨fun j hf => ?_, fun l hf => ?_, fun kvs hf => ?_⟩
    · cases j with
      | null => simp [fuelOf, dumpVal]
      | bool b => cases b <;> simp [fuelOf, dumpVal]
      | num i =>
        have h1 : fuelOf (Json.num i) = 1 := rfl
        rw [h1]
        have : (dumpVal (Json.num i)).length ≠ 0 := by
          rw [dumpVal.eq_def]
          cases i with
          | ofNat n =>
            simp only [intChars]
            simpa using natChars_ne_nil n
          | negSucc m => simp [intChars]
        omega
      | str s => simp [fuelOf, dumpVal]
      | arr l =>
        have hs : sumFuel l ≤ N := by simp [fuelOf] at hf; omega
        have := ihB l hs
        simp [fuelOf, dumpVal]
        omega
      | obj kvs =>
        have hs : sumFuelKV kvs ≤ N := by simp [fuelOf] at hf; omega
        have := ihC kvs hs
        simp [fuelOf, dumpVal]
        omega
    · match l with
      | [] => simp [sumFuel]
      | [x] =>
        have h1 : fuelOf x ≤ N := by simp [sumFuel] at hf; omega
        have := ihA x h1
        rw [dumpElems.eq_def]
        simp [sumFuel]
        omega
      | x :: x2 :: xs =>
        have h1 : fuelOf x ≤ N := by simp [sumFuel] at hf; omega
        have h3 : sumFuel (x2 :: xs) ≤ N := by
          simp [sumFuel] at hf ⊢
          omega
        have ha := ihA x h1
        have hb := ihB (x2 :: xs) h3
        rw [dumpElems.eq_def]
        simp [sumFuel] at hb ⊢
        omega
    · match kvs with
      | [] => simp [sumFuelKV]
      | [(k, v)] =>
        have h1 : fuelOf v ≤ N := by simp [sumFuelKV] at hf; omega
        have := ihA v h1
        rw [dumpMembers.eq_def]
        simp [sumFuelKV]
        omega
      | (k, v) :: kv2 :: tl =>
        have h1 : fuelOf v ≤ N := by simp [sumFuelKV] at hf; omega
        have h3 : sumFuelKV (kv2 :: tl) ≤ N := by
          simp [sumFuelKV] at hf ⊢
          omega
        have ha := ihA v h1
        have hc := ihC (kv2 :: tl) h3
        rw [dumpMembers.eq_def]
        simp [sumFuelKV] at hc ⊢
        omega

/-! ## C6, part 4: the parser inverts the serializer -/

/-- `]` and `\x7d` and `,` and `:` never start a number. -/
theorem noDigitHead_marker :
    noDigitHead (']' :: r) ∧ noDigitHead ('\x7d' :: r) ∧
    noDigitHead (',' :: r) ∧ noDigitHead (':' :: r) := by
  refine ⟨?_, ?_, ?_, ?_⟩ <;> (show isDigitCh _ = false; decide)

/-- Characters of a plain string never equal the closing quote. -/
theorem plain_no_quote (cs : List Char)
    (h : ∀ c ∈ cs, plainChar c = true) : ∀ c ∈ cs, (c == '"') = false := by
  intro c hc
  have := h c hc
  simp only [plainChar, decide_eq_true_eq] at this
  obtain ⟨_, _, h34, _⟩ := this
  simp only [beq_eq_false_iff_ne, ne_eq]
  intro e
  subst e
  exact h34 rfl


/-- The round-trip core: with adequate fuel, the recursive-descent parser
consumes exactly the serialization of a plain value (or element/member
list) and returns it, leaving the rest of the input untouched. -/
theorem parse_dump : ∀ fuel : Nat,
    (∀ j rest, plainV j = true → fuelOf j ≤ fuel → noDigitHead rest →
       parseVal fuel (dumpVal j ++ rest) = some (j, rest)) ∧
    (∀ l rest, l ≠ [] → plainL l = true → sumFuel l ≤ fuel →
       parseElems fuel (dumpElems l ++ ']' :: rest) = some (l, rest)) ∧
    (∀ kvs rest, kvs ≠ [] → plainKV kvs = true → sumFuelKV kvs ≤ fuel →
       parseMembers fuel (dumpMembers kvs ++ '\x7d' :: rest) =
         some (kvs, rest)) := by
  intro fuel
  induction fuel with
  | zero =>
    exact ⟨fun j _ _ hf _ => absurd hf (by have := fuelOf_pos j; omega),
           fun l _ hne _ hf =>
             absurd hf (by have := sumFuel_pos l hne; omega),
           fun kvs _ hne _ hf =>
             absurd hf (by have := sumFuelKV_pos kvs hne; omega)⟩
  | succ fuel ih =>
    obtain ⟨ihP, ihQ, ihR⟩ := ih
    refine ⟨fun j rest hp hf hnd => ?_, fun l rest hne hpl hfl => ?_,
            fun kvs rest hne hpk hfk => ?_⟩
    · -- values
      cases j with
      | null =>
        simp only [dumpVal]
        simp [parseVal]
      | bool b =>
        cases b <;> (simp only [dumpVal]; simp [parseVal])
      | num i =>
        cases i with
        | ofNat n =>
          cases hnc : natChars n with
          | nil => exact absurd hnc (natChars_ne_nil n)
          | cons d ds =>
            have hdig : ∀ c ∈ natChars n, isDigitCh c = true :=
              natChars_digits n
            have hd : isDigitCh d = true := hdig d (by simp [hnc])
            obtain ⟨hn1, hn2, hn3, hn4, hn5, hn6, hn7, _, _⟩ :=
              digit_ne_markers d hd
            have hval : digitsVal (d.toNat - 48) ds = n := by
              have hv := digitsVal_natChars n
              rw [hnc] at hv
              simpa [digitsVal] using hv
            simp only [dumpVal]
            simp only [intChars]
            rw [hnc]
            simp only [List.cons_append, parseVal]
            rw [if_neg hn1, if_neg hn2, if_neg hn3, if_neg hn4, if_neg hn5,
                if_neg hn6, if_neg hn7, if_pos hd]
            rw [parseNatGo_append ds rest (d.toNat - 48)
                  (fun c hc => hdig c (by simp [hnc, hc])) hnd]
            simp [hval]
        | negSucc m =>
          cases hnc : natChars (m + 1) with
          | nil => exact absurd hnc (natChars_ne_nil (m + 1))
          | cons d ds =>
            have hdig : ∀ c ∈ natChars (m + 1), isDigitCh c = true :=
              natChars_digits (m + 1)
            have hd : isDigitCh d = true := hdig d (by simp [hnc])
            have hval : digitsVal (d.toNat - 48) ds = m + 1 := by
              have hv := digitsVal_natChars (m + 1)
              rw [hnc] at hv
              simpa [digitsVal] using hv
            simp only [dumpVal]
            simp only [intChars]
            rw [hnc]
            simp only [List.cons_append, parseVal]
            rw [if_neg (by decide), if_neg (by decide), if_neg (by decide),
                if_neg (by decide), if_neg (by decide), if_neg (by decide),
                if_pos trivial, if_pos hd]
            rw [parseNatGo_append ds rest (d.toNat - 48)
                  (fun c hc => hdig c (by simp [hnc, hc])) hnd]
            have hgoal : (-(↑(digitsVal (d.toNat - 48) ds) : Int)) =
                Int.negSucc m := by
              rw [hval, Int.negSucc_eq]
              push_cast
              ring
            simp [hgoal]
      | str s =>
        have hplain : ∀ c ∈ s.data, plainChar c = true := by
          simpa [plainV, List.all_eq_true] using hp
        have hesc := escString_plain s.data hplain
        have hnq := plain_no_quote s.data hplain
        obtain ⟨ht, hd⟩ := span_no_quote s.data rest hnq
        simp only [dumpVal]
        rw [hesc]
        have hform : (('"' :: s.data ++ ['"']) ++ rest) =
            '"' :: (s.data ++ '"' :: rest) := by simp
        rw [hform]
        simp [parseVal, hd, ht]
      | arr l =>
        cases l with
        | nil =>
          simp only [dumpVal]
          simp only [dumpElems]
          simp [parseVal]
        | cons x xs =>
          obtain ⟨c, tl, hcons, hhead⟩ := dumpVal_head x
          have hcne : c ≠ ']' := by
            rcases hhead with rfl | rfl | rfl | rfl | rfl | rfl | rfl | hdg
            · decide
            · decide
            · decide
            · decide
            · decide
            · decide
            · decide
            · exact (digit_ne_markers c hdg).2.2.2.2.2.2.2.1
          have ht2 : ∃ t2, dumpElems (x :: xs) = c :: t2 := by
            match xs with
            | [] =>
              exact ⟨tl, by simp only [dumpElems]; simpa using hcons⟩
            | x2 :: xs' =>
              refine ⟨tl ++ ',' :: dumpElems (x2 :: xs'), ?_⟩
              simp only [dumpElems]
              simp [hcons]
          obtain ⟨t2, ht2⟩ := ht2
          have hplainL : plainL (x :: xs) = true := by
            simpa [plainV] using hp
          have hfuelL : sumFuel (x :: xs) ≤ fuel := by
            simp [fuelOf] at hf
            omega
          have hq := ihQ (x :: xs) rest (by simp) hplainL hfuelL
          simp only [dumpVal]
          have hform : (('[' :: dumpElems (x :: xs) ++ [']']) ++ rest) =
              '[' :: (c :: (t2 ++ ']' :: rest)) := by
            rw [ht2]
            simp
          rw [hform]
          simp only [parseVal]
          rw [if_neg (by decide), if_neg (by decide), if_neg (by decide),
              if_neg (by decide), if_pos trivial]
          rw [if_neg hcne]
          have hback : (c :: (t2 ++ ']' :: rest)) =
              dumpElems (x :: xs) ++ ']' :: rest := by
            rw [ht2]
            simp
          rw [hback, hq]
          rfl
      | obj kvs =>
        cases kvs with
        | nil =>
          simp only [dumpVal]
          simp only [dumpMembers]
          simp [parseVal]
        | cons kv tl =>
          obtain ⟨k, v⟩ := kv
          have hstart : ∃ t2, dumpMembers ((k, v) :: tl) = '"' :: t2 := by
            match tl with
            | [] =>
              exact ⟨escString k.data ++ '"' :: ':' :: dumpVal v,
                by simp [dumpMembers]⟩
            | kv2 :: tl' =>
              exact ⟨escString k.data ++ '"' :: ':' :: dumpVal v ++
                  ',' :: dumpMembers (kv2 :: tl'),
                by simp only [dumpMembers]; simp⟩
          obtain ⟨t2, ht2⟩ := hstart
          have hplainK : plainKV ((k, v) :: tl) = true := by
            simpa [plainV] using hp
          have hfuelK : sumFuelKV ((k, v) :: tl) ≤ fuel := by
            simp [fuelOf] at hf
            omega
          have hr := ihR ((k, v) :: tl) rest (by simp) hplainK hfuelK
          simp only [dumpVal]
          have hform : (('\x7b' :: dumpMembers ((k, v) :: tl) ++ ['\x7d'])
              ++ rest) = '\x7b' :: ('"' :: (t2 ++ '\x7d' :: rest)) := by
            rw [ht2]
            simp
          rw [hform]
          simp only [parseVal]
          rw [if_neg (by decide), if_neg (by decide), if_neg (by decide),
              if_neg (by decide), if_neg (by decide), if_pos trivial]
          rw [if_neg (by decide)]
          have hback : ('"' :: (t2 ++ '\x7d' :: rest)) =
              dumpMembers ((k, v) :: tl) ++ '\x7d' :: rest := by
            rw [ht2]
            simp
          rw [hback, hr]
          rfl
    · -- element lists
      match l with
      | [x] =>
        have hpx : plainV x = true := by simpa [plainL] using hpl
        have hfx : fuelOf x ≤ fuel := by simp [sumFuel] at hfl; omega
        have hq := ihP x (']' :: rest) hpx hfx noDigitHead_marker.1
        simp only [dumpElems]
        simp only [parseElems]
        rw [hq]
        rfl
      | x :: x2 :: xs =>
        have hpx : plainV x = true ∧ plainL (x2 :: xs) = true := by
          have := hpl
          simp [plainL] at this ⊢
          tauto
        have hfx : fuelOf x ≤ fuel := by simp [sumFuel] at hfl; omega
        have hfx2 : sumFuel (x2 :: xs) ≤ fuel := by
          simp [sumFuel] at hfl ⊢
          omega
        have hq := ihP x (',' :: (dumpElems (x2 :: xs) ++ ']' :: rest))
          hpx.1 hfx noDigitHead_marker.2.2.1
        have hq2 := ihQ (x2 :: xs) rest (by simp) hpx.2 hfx2
        simp only [dumpElems]
        have hform : ((dumpVal x ++ ',' :: dumpElems (x2 :: xs)) ++
            ']' :: rest) =
            dumpVal x ++ (',' :: (dumpElems (x2 :: xs) ++ ']' :: rest)) := by
          simp
        rw [hform]
        simp only [parseElems]
        rw [hq]
        simp only [hq2]
        rfl
    · -- member lists
      match kvs with
      | [(k, v)] =>
        have hpk2 : (∀ c ∈ k.data, plainChar c = true) ∧ plainV v = true := by
          have := hpk
          simp [plainKV, List.all_eq_true] at this
          tauto
        have hfv : fuelOf v ≤ fuel := by simp [sumFuelKV] at hfk; omega
        have hesc := escString_plain k.data hpk2.1
        have hnq := plain_no_quote k.data hpk2.1
        obtain ⟨ht, hd⟩ :=
          span_no_quote k.data (':' :: (dumpVal v ++ '\x7d' :: rest)) hnq
        have hpv := ihP v ('\x7d' :: rest) hpk2.2 hfv noDigitHead_marker.2.1
        simp only [dumpMembers]
        rw [hesc]
        have hform : (('"' :: k.data ++ '"' :: ':' :: dumpVal v) ++
            '\x7d' :: rest) =
            '"' :: (k.data ++ '"' :: (':' :: (dumpVal v ++ '\x7d' :: rest)))
            := by simp
        rw [hform]
        simp only [parseMembers, hd, ht, hpv]
      | (k, v) :: kv2 :: tl =>
        have hpk2 : (∀ c ∈ k.data, plainChar c = true) ∧ plainV v = true ∧
            plainKV (kv2 :: tl) = true := by
          have := hpk
          simp [plainKV, List.all_eq_true] at this ⊢
          tauto
        have hfv : fuelOf v ≤ fuel := by simp [sumFuelKV] at hfk; omega
        have hftl : sumFuelKV (kv2 :: tl) ≤ fuel := by
          simp [sumFuelKV] at hfk ⊢
          omega
        have hesc := escString_plain k.data hpk2.1
        have hnq := plain_no_quote k.data hpk2.1
        obtain ⟨ht, hd⟩ := span_no_quote k.data
          (':' :: (dumpVal v ++
            ',' :: (dumpMembers (kv2 :: tl) ++ '\x7d' :: rest))) hnq
        have hpv := ihP v
          (',' :: (dumpMembers (kv2 :: tl) ++ '\x7d' :: rest))
          hpk2.2.1 hfv noDigitHead_marker.2.2.1
        have hr2 := ihR (kv2 :: tl) rest (by simp) hpk2.2.2 hftl
        simp only [dumpMembers]
        rw [hesc]
        have hform : ((('"' :: k.data ++ '"' :: ':' :: dumpVal v) ++
            ',' :: dumpMembers (kv2 :: tl)) ++ '\x7d' :: rest) =
            '"' :: (k.data ++ '"' :: (':' :: (dumpVal v ++
              ',' :: (dumpMembers (kv2 :: tl) ++ '\x7d' :: rest)))) := by
          simp
        rw [hform]
        simp only [parseMembers, hd, ht, hpv, hr2]
        rfl

/-- C6: encode-then-decode is the identity — the credential returned by
step 5 of the purchase flow (`urllib.parse.quote(json.dumps(token,
separators=(',', ':')), safe='')`), after percent-decoding and
JSON-decoding, is exactly the token object that was serialized.  Stated
for tokens whose strings are plain (printable ASCII without `"` or `\` —
every protocol token: base64, hex, route ids); `json.dumps` escapes
nothing in such strings. -/
theorem credential_serialization_roundtrip (tok : List (String × Json))
    (h : plainV (Json.obj tok) = true) :
    jsonParse (String.mk (pctUnquote (serializeToken tok).data)) =
      some (Json.obj tok) := by
  have hascii : ∀ c ∈ dumpVal (Json.obj tok), c.toNat < 128 :=
    (dump_ascii (fuelOf (Json.obj tok))).1 (Json.obj tok) le_rfl h
  have hdata : (serializeToken tok).data =
      pctQuote (dumpVal (Json.obj tok)) := rfl
  rw [hdata, pctUnquote_pctQuote _ hascii]
  have hfuel : fuelOf (Json.obj tok) ≤
      (dumpVal (Json.obj tok)).length + 1 := by
    have := (fuel_le_dump_len (fuelOf (Json.obj tok))).1 (Json.obj tok) le_rfl
    omega
  have hp := (parse_dump ((dumpVal (Json.obj tok)).length + 1)).1
    (Json.obj tok) [] h hfuel trivial
  rw [List.append_nil] at hp
  show (match parseVal ((dumpVal (Json.obj tok)).length + 1)
          (dumpVal (Json.obj tok)) with
        | some (j, []) => some j
        | _ => none) = some (Json.obj tok)
  rw [hp]

/-- Witness for C6: the round-trip holds at the concrete signed
`demoToken`. -/
theorem credential_serialization_roundtrip_witness :
    plainV (Json.obj demoToken) = true ∧
    jsonParse (String.mk (pctUnquote (serializeToken demoToken).data)) =
      some (Json.obj demoToken) :=
  ⟨by simp [demoToken, plainV, plainKV, plainL, plainChar],
   credential_serialization_roundtrip demoToken
     (by simp [demoToken, plainV, plainKV, plainL, plainChar])⟩
